import Mathlib

/-!
Verification of the Pursue/Trace scanner (src/logger.rs, src/map.rs,
src/filetype.rs) against its natural-language specification.

Strings are modelled as `List Char`; every marker and keyword in the program
is ASCII, and `map.rs` builds lines by pushing one byte at a time, so a
character of the model stands for one byte of the Rust string.  Fallible
code (the slice expression `&line[a..b]`, which panics when `a > b`) is
modelled with `Option`: `none` is a panic.
-/

namespace Pursue

/-- `matchAt pat line i` holds when `pat` occurs in `line` at position `i`
(the position arithmetic of Rust `str::find` / `str::rfind`). -/
def matchAt (pat line : List Char) (i : Nat) : Bool :=
  decide ((line.drop i).take pat.length = pat)

/-- Rust `line.find(pat)`: index of the first occurrence of `pat`. -/
def findIdx (pat line : List Char) : Option Nat :=
  (List.range (line.length + 1)).find? (fun i => matchAt pat line i)

/-- Rust `line.rfind(pat)`: index of the last occurrence of `pat`. -/
def rfindIdx (pat line : List Char) : Option Nat :=
  ((List.range (line.length + 1)).filter (fun i => matchAt pat line i)).getLast?

/-- Rust `&line[a..b]` (logger.rs:262).  Panics (`none`) unless `a ≤ b ≤ len`. -/
def sliceCk (a b : Nat) (line : List Char) : Option (List Char) :=
  if a ≤ b ∧ b ≤ line.length then some ((line.drop a).take (b - a)) else none

/-- `FileType` of src/filetype.rs: one variant per language, each carrying the
optional inline marker and the optional multiline start/end markers. -/
inductive FileType where
  | C (inlineFmt mstartFmt mendFmt : Option (List Char))
  | CHeader (inlineFmt mstartFmt mendFmt : Option (List Char))
  | Cpp (inlineFmt mstartFmt mendFmt : Option (List Char))
  | CppHeader (inlineFmt mstartFmt mendFmt : Option (List Char))
  | CSharp (inlineFmt mstartFmt mendFmt : Option (List Char))
  | Java (inlineFmt mstartFmt mendFmt : Option (List Char))
  | Python (inlineFmt mstartFmt mendFmt : Option (List Char))
  | Go (inlineFmt mstartFmt mendFmt : Option (List Char))
  | Rust (inlineFmt mstartFmt mendFmt : Option (List Char))
  | Zig (inlineFmt mstartFmt mendFmt : Option (List Char))
  | Javascript (inlineFmt mstartFmt mendFmt : Option (List Char))
  | Typescript (inlineFmt mstartFmt mendFmt : Option (List Char))
  | Makefile (inlineFmt mstartFmt mendFmt : Option (List Char))
  | Json (inlineFmt mstartFmt mendFmt : Option (List Char))
deriving DecidableEq

/-- `destructure_filetype!` of src/filetype.rs: the marker triple. -/
def destructureFiletype : FileType →
    Option (List Char) × Option (List Char) × Option (List Char)
  | .C a b c => (a, b, c)
  | .CHeader a b c => (a, b, c)
  | .Cpp a b c => (a, b, c)
  | .CppHeader a b c => (a, b, c)
  | .CSharp a b c => (a, b, c)
  | .Java a b c => (a, b, c)
  | .Python a b c => (a, b, c)
  | .Go a b c => (a, b, c)
  | .Rust a b c => (a, b, c)
  | .Zig a b c => (a, b, c)
  | .Javascript a b c => (a, b, c)
  | .Typescript a b c => (a, b, c)
  | .Makefile a b c => (a, b, c)
  | .Json a b c => (a, b, c)

/-- `stringify_filetype!` of src/filetype.rs: the language's display name. -/
def stringifyFiletype : FileType → String
  | .C _ _ _ => "C"
  | .CHeader _ _ _ => "C Header"
  | .Cpp _ _ _ => "C++"
  | .CppHeader _ _ _ => "C++ Header"
  | .CSharp _ _ _ => "C#"
  | .Java _ _ _ => "Java"
  | .Python _ _ _ => "Python"
  | .Go _ _ _ => "Go"
  | .Rust _ _ _ => "Rust"
  | .Zig _ _ _ => "Zig"
  | .Javascript _ _ _ => "JavaScript"
  | .Typescript _ _ _ => "TypeScript"
  | .Makefile _ _ _ => "Makefile"
  | .Json _ _ _ => "JSON"

/-- A path, as `classify_file` (logger.rs:116) consumes it: the result of
`path.extension().and_then(to_str)` and of `path.file_name().and_then(to_str)`.
A non-UTF-8 extension behaves exactly like an unrecognized extension string
(both fall into the wildcard arm), so `Option String` is enough. -/
structure PathM where
  ext : Option String
  fname : Option String
deriving DecidableEq

def CPP_FILE_EXTENSIONS : List String := ["cpp", "cxx", "cc"]

/-- `Logger::classify_file` (logger.rs:116-191). -/
def classifyFile (p : PathM) : Option FileType :=
  match p.ext with
  | some e =>
    if e = "c" then some (.C (some "//".data) (some "/*".data) (some "*/".data))
    else if e = "h" then
      some (.CHeader (some "//".data) (some "/*".data) (some "*/".data))
    else if CPP_FILE_EXTENSIONS.contains e then
      some (.Cpp (some "//".data) (some "/*".data) (some "*/".data))
    else if e = "hpp" then
      some (.CppHeader (some "//".data) (some "/*".data) (some "*/".data))
    else if e = "cs" then
      some (.CSharp (some "//".data) (some "/*".data) (some "*/".data))
    else if e = "java" then
      some (.Java (some "//".data) (some "/*".data) (some "*/".data))
    else if e = "py" then some (.Python (some "#".data) none none)
    else if e = "go" then
      some (.Go (some "//".data) (some "/*".data) (some "*/".data))
    else if e = "zig" then some (.Zig (some "//".data) none none)
    else if e = "rs" then
      some (.Rust (some "//".data) (some "/*".data) (some "*/".data))
    else if e = "js" then
      some (.Javascript (some "//".data) (some "/*".data) (some "*/".data))
    else if e = "ts" then
      some (.Typescript (some "//".data) (some "/*".data) (some "*/".data))
    else none
  | none =>
    match p.fname with
    | some n =>
      if n = "Makefile" then some (.Makefile (some "#".data) none none) else none
    | none => none

/-- The `match format { None => None, Some(p) => line.find(p) }` idiom of
logger.rs:207-210 and 217-220. -/
def markerFirst (fmt : Option (List Char)) (line : List Char) : Option Nat :=
  match fmt with
  | none => none
  | some p => findIdx p line

/-- Same for the end marker, which uses `rfind` (logger.rs:212-215). -/
def markerLast (fmt : Option (List Char)) (line : List Char) : Option Nat :=
  match fmt with
  | none => none
  | some p => rfindIdx p line

/-- The comment-portion computation of `Logger::process_line`
(logger.rs:200-274) after `destructure_filetype!`: given the three marker
formats, the line and the carried multiline state, return the comment
portion (`none` means the early `return` arms that skip keyword scanning)
and the new state.  The outer `Option` is panic: the only fallible slice is
`&line[multi_left..multi_right]` in the `(Some, Some, None, false)` arm,
modelled by `sliceCk`.  The match arms are in source order. -/
def processLineCore (inlineFmt mstartFmt mendFmt : Option (List Char))
    (line : List Char) (st : Bool) : Option (Option (List Char) × Bool) :=
  if line = [] then some (none, st) else
  match markerFirst mstartFmt line, markerLast mendFmt line,
      markerFirst inlineFmt line, st with
  | none, none, none, false => some (none, false)
  | some _, some _, none, true => some (some line, true)
  | _, none, _, true => some (some line, true)
  | some _, some _, some _, true => some (some line, true)
  | some l, none, none, false => some (some (line.drop l), true)
  | none, some r, none, _ => some (some (line.take r), false)
  | none, some r, some c, _ =>
      some (some (if r < c then line.take r ++ line.drop c else line.take r), false)
  | some l, none, some c, false =>
      some (some (if l < c then line.drop l else line.take c ++ line.drop l), true)
  | some l, some r, none, false => (sliceCk l r line).map (fun s => (some s, false))
  | some _, some _, some _, false => some (some line, false)
  | none, none, some c, false => some (some (line.drop c), false)

/-- `process_line` on a `FileType`, destructuring as the source does. -/
def processLine (ft : FileType) (line : List Char) (st : Bool) :
    Option (Option (List Char) × Bool) :=
  let t := destructureFiletype ft
  processLineCore t.1 t.2.1 t.2.2 line st

/-- `Logger::KEY_COMMENTS` (logger.rs:54). -/
def KEY_COMMENTS : List (List Char) :=
  ["TODO".data, "HACK".data, "BUG".data, "FIXME".data]

/-- Rust `comment_portion.contains(keyword)` (logger.rs:277). -/
def containsKw (s kw : List Char) : Bool :=
  (findIdx kw s).isSome

/-- The shared counters of `Logger` (logger.rs:30-32): `line_count`,
`keyword_table` and `filetype_table`.  The two hash tables are modelled as
association lists (insertion order fixed; only the key-to-count map matters). -/
structure Agg where
  lineCount : Nat
  kwTable : List (List Char × Nat)
  ftTable : List (String × Nat)
deriving DecidableEq

/-- `Logger::new` seeds `keyword_table` with every key comment at 0
(logger.rs:57-60). -/
def initKwTable : List (List Char × Nat) := KEY_COMMENTS.map (fun k => (k, 0))

def Agg.init : Agg := ⟨0, initKwTable, []⟩

/-- `Logger::increment_keyword` (logger.rs:96-102): bump the entry if the key
is present, insert it at 1 otherwise. -/
def incKey (k : List Char) : List (List Char × Nat) → List (List Char × Nat)
  | [] => [(k, 1)]
  | (k', v) :: rest =>
    if k' = k then (k', v + 1) :: rest else (k', v) :: incKey k rest

/-- `Logger::increment_filetype_frequency` (logger.rs:104-114), same shape. -/
def incKeyS (k : String) : List (String × Nat) → List (String × Nat)
  | [] => [(k, 1)]
  | (k', v) :: rest =>
    if k' = k then (k', v + 1) :: rest else (k', v) :: incKeyS k rest

/-- One `*line_count += 1` critical section (logger.rs:279, 324). -/
def incLineAgg (a : Agg) : Agg := { a with lineCount := a.lineCount + 1 }

def incKwAgg (k : List Char) (a : Agg) : Agg :=
  { a with kwTable := incKey k a.kwTable }

def incFtAgg (n : String) (a : Agg) : Agg :=
  { a with ftTable := incKeyS n a.ftTable }

/-- The keyword loop at the end of `process_line` (logger.rs:276-291): for
each key comment found in the portion, the shared line counter is bumped and
then that keyword's counter is bumped. -/
def tallyKeywords (portion : List Char) (a : Agg) : Agg :=
  KEY_COMMENTS.foldl
    (fun acc kw =>
      if containsKw portion kw then incKwAgg kw (incLineAgg acc) else acc)
    a

/-- `process_line` with its counter side effects. -/
def processLineTally (ft : FileType) (line : List Char) (st : Bool) (a : Agg) :
    Option (Bool × Agg) :=
  match processLine ft line st with
  | none => none
  | some (none, st') => some (st', a)
  | some (some portion, st') => some (st', tallyKeywords portion a)

/-- The per-line loop of `parse_file` (logger.rs:312-326): `process_line`,
then `*line_count += 1`, threading the multiline flag. -/
def parseLines (ft : FileType) : List (List Char) → Bool → Agg → Option Agg
  | [], _, a => some a
  | l :: ls, st, a =>
    match processLineTally ft l st a with
    | none => none
    | some (st', a') => parseLines ft ls st' (incLineAgg a')

/-- `Logger::parse_file` (logger.rs:294-327).  `openOk` is the outcome of
`File::open`; `contents` stands for the lines the reader would yield. -/
def parseFile (openOk : Bool) (p : PathM) (contents : List (List Char))
    (a : Agg) : Option Agg :=
  if openOk = false then some a else
  match classifyFile p with
  | none => some a
  | some ft => parseLines ft contents false (incFtAgg (stringifyFiletype ft) a)

/-- One queued path together with its open outcome and contents. -/
structure FileEntry where
  openOk : Bool
  path : PathM
  contents : List (List Char)

/-- `waiting_room`'s drain of the queue (logger.rs:329-347): `parse_file`
on each popped path in turn. -/
def scanFiles : List FileEntry → Agg → Option Agg
  | [], a => some a
  | f :: fs, a =>
    match parseFile f.openOk f.path f.contents a with
    | none => none
    | some a' => scanFiles fs a'

/-! ### The Line Source (src/map.rs)

`Map` holds the file's bytes and a cursor `byte_location`; its `Iterator`
instance (map.rs:65-112) walks from the cursor, pushing data bytes onto the
line under construction and stopping at a terminator.  Bytes are `Nat`s
(10 = LF, 13 = CR).  `file_metadata.len()` equals the mapped length, so
both are `bytes.length` here.  The `for location in self.byte_location..`
loop is fuel recursion (the fuel `bytes.length + 1 - loc` covers every
iteration the loop can make; pushing onto `built_line` is modelled by
consing the byte onto the line returned for the rest of the walk). -/

/-- One iteration structure of `Map::next` (map.rs:67-111), byte literals
compared with `if` so proofs can discharge the comparisons. -/
def mapNextAux (bytes : List Nat) : Nat → Nat → Option (List Nat × Nat)
  | 0, _ => none
  | fuel + 1, location =>
    match bytes[location]? with
    | some b =>
      if b = 10 then
        -- unix line ending
        some ([], location + 1)
      else if b = 13 then
        -- dos and legacy mac line endings
        match bytes[location + 1]? with
        | some b2 =>
          if b2 = 10 then some ([], location + 2) else some ([], location + 1)
        | none => some ([], location + 1)
      else
        (mapNextAux bytes fuel (location + 1)).map (fun r => (b :: r.1, r.2))
    | none =>
      if location ≤ bytes.length then some ([], location + 1) else none

/-- `Map::next`: the produced line and the new `byte_location`. -/
def mapNext (bytes : List Nat) (location : Nat) : Option (List Nat × Nat) :=
  mapNextAux bytes (bytes.length + 1 - location) location

/-- Driving the iterator to exhaustion from a given cursor. -/
def mapLinesFrom (bytes : List Nat) : Nat → Nat → List (List Nat)
  | 0, _ => []
  | fuel + 1, loc =>
    match mapNext bytes loc with
    | none => []
    | some (l, loc') => l :: mapLinesFrom bytes fuel loc'

/-- Every line `Map` yields for a file, in order (`byte_location` starts
at 0, map.rs:49; each `next` advances the cursor, so `bytes.length + 2`
steps suffice). -/
def mapLines (bytes : List Nat) : List (List Nat) :=
  mapLinesFrom bytes (bytes.length + 2) 0

/-- Reference shape of the produced line sequence: split the byte string at
every LF, CRLF or lone-CR boundary.  `mapLines` is proved equal to this. -/
def linesSpec : List Nat → List (List Nat)
  | [] => [[]]
  | 10 :: rest => [] :: linesSpec rest
  | 13 :: 10 :: rest => [] :: linesSpec rest
  | 13 :: rest => [] :: linesSpec rest
  | b :: rest =>
    match linesSpec rest with
    | [] => [[b]]
    | l :: ls => (b :: l) :: ls

/-- A legal line terminator byte sequence: LF, CRLF or lone CR. -/
def isTermSeq (t : List Nat) : Prop :=
  t = [10] ∨ t = [13, 10] ∨ t = [13]

instance (t : List Nat) : Decidable (isTermSeq t) := by
  unfold isTermSeq; infer_instance

/-- Terminator-free line payload. -/
def noTermBytes (l : List Nat) : Prop := ∀ b ∈ l, b ≠ 10 ∧ b ≠ 13

instance (l : List Nat) : Decidable (noTermBytes l) := by
  unfold noTermBytes; infer_instance

/-- A byte file built by terminating each line text with its chosen
terminator. -/
def joinT : List (List Nat) → List (List Nat) → List Nat
  | [], _ => []
  | _ :: _, [] => []
  | l :: ls, t :: ts => l ++ (t ++ joinT ls ts)

/-! ### State-machine views used by the claims -/

/-- Only the state transition of `process_line`: the new multiline flag, or
`none` for a panic. -/
def stepState (inlineFmt mstartFmt mendFmt : Option (List Char))
    (line : List Char) (st : Bool) : Option Bool :=
  (processLineCore inlineFmt mstartFmt mendFmt line st).map (fun r => r.2)

/-- The multiline flag after `process_line` has consumed each given line in
turn (the threading of `in_multiline_comment` through `parse_file`'s loop). -/
def runStates (inlineFmt mstartFmt mendFmt : Option (List Char)) :
    List (List Char) → Bool → Option Bool
  | [], st => some st
  | l :: rest, st =>
    match processLineCore inlineFmt mstartFmt mendFmt l st with
    | none => none
    | some (_, st') => runStates inlineFmt mstartFmt mendFmt rest st'

/-- A nonempty line on which only the multiline-start marker is found. -/
def startOnly (inlineFmt mstartFmt mendFmt : Option (List Char))
    (line : List Char) : Prop :=
  line ≠ [] ∧ (markerFirst mstartFmt line).isSome = true ∧
    markerLast mendFmt line = none ∧ markerFirst inlineFmt line = none

instance (a b c : Option (List Char)) (l : List Char) :
    Decidable (startOnly a b c l) := by
  unfold startOnly; infer_instance

/-- A line on which no marker of the grammar is found. -/
def noMarker (inlineFmt mstartFmt mendFmt : Option (List Char))
    (line : List Char) : Prop :=
  markerFirst mstartFmt line = none ∧ markerLast mendFmt line = none ∧
    markerFirst inlineFmt line = none

instance (a b c : Option (List Char)) (l : List Char) :
    Decidable (noMarker a b c l) := by
  unfold noMarker; infer_instance

/-- A nonempty line on which only the multiline-end marker is found. -/
def endOnly (inlineFmt mstartFmt mendFmt : Option (List Char))
    (line : List Char) : Prop :=
  line ≠ [] ∧ markerFirst mstartFmt line = none ∧
    (markerLast mendFmt line).isSome = true ∧ markerFirst inlineFmt line = none

instance (a b c : Option (List Char)) (l : List Char) :
    Decidable (endOnly a b c l) := by
  unfold endOnly; infer_instance

/-- Sum of all keyword counters. -/
def sumKw (a : Agg) : Nat := (a.kwTable.map (fun e => e.2)).sum

/-- The aggregate states a scan can pass through: the initial state and
everything obtained by the program's three kinds of counter critical
sections (logger.rs:279, 324: `*line_count += 1`; logger.rs:279-282: a
line-count bump directly followed by `increment_keyword`; logger.rs:307:
`increment_filetype_frequency`). -/
inductive Reachable : Agg → Prop where
  | init : Reachable Agg.init
  | lineStep {a : Agg} : Reachable a → Reachable (incLineAgg a)
  | kwStep {a : Agg} (k : List Char) :
      Reachable a → Reachable (incKwAgg k (incLineAgg a))
  | ftStep {a : Agg} (n : String) : Reachable a → Reachable (incFtAgg n a)

/-! ### Helper lemmas about `linesSpec` and list indexing -/

theorem linesSpec_nil : linesSpec [] = [[]] := rfl

theorem linesSpec_lf (rest : List Nat) :
    linesSpec (10 :: rest) = [] :: linesSpec rest := rfl

theorem linesSpec_crlf (rest : List Nat) :
    linesSpec (13 :: 10 :: rest) = [] :: linesSpec rest := rfl

theorem linesSpec_cr_nil : linesSpec [13] = [[], []] := rfl

theorem linesSpec_cr (b2 : Nat) (rest2 : List Nat) (h : b2 ≠ 10) :
    linesSpec (13 :: b2 :: rest2) = [] :: linesSpec (b2 :: rest2) := by
  rw [linesSpec.eq_def]
  split
  all_goals simp_all

theorem linesSpec_data (b : Nat) (rest : List Nat) (h10 : b ≠ 10) (h13 : b ≠ 13) :
    linesSpec (b :: rest) =
      match linesSpec rest with
      | [] => [[b]]
      | l :: ls => (b :: l) :: ls := by
  rw [linesSpec.eq_def]
  split
  all_goals simp_all

theorem drop_cons_getElem {α : Type} (bytes : List α) (loc : Nat) (b : α)
    (rest : List α) (h : bytes.drop loc = b :: rest) :
    bytes[loc]? = some b ∧ bytes.drop (loc + 1) = rest := by
  induction loc generalizing bytes with
  | zero => simp only [List.drop_zero] at h; subst h; simp
  | succ n ih =>
    cases bytes with
    | nil => simp at h
    | cons c bs =>
      simp only [List.drop_succ_cons] at h
      simpa using ih bs h

theorem drop_lt_length {α : Type} (bytes : List α) (loc : Nat) (b : α)
    (rest : List α) (h : bytes.drop loc = b :: rest) : loc < bytes.length := by
  by_contra hle
  rw [List.drop_eq_nil_of_le (by omega)] at h
  exact List.noConfusion h

/-- Complete description of one `Map::next` call from any in-range cursor:
it yields a line, advances the cursor, and the produced line is the head of
`linesSpec` on the remaining bytes (the final call lands at `length + 1`). -/
theorem mapNextAux_char (bytes : List Nat) :
    ∀ (fuel loc : Nat), loc ≤ bytes.length → bytes.length - loc < fuel →
    ∃ l loc', mapNextAux bytes fuel loc = some (l, loc') ∧ loc < loc' ∧
      ((loc' ≤ bytes.length ∧
          linesSpec (bytes.drop loc) = l :: linesSpec (bytes.drop loc')) ∨
        (loc' = bytes.length + 1 ∧ linesSpec (bytes.drop loc) = [l])) := by
  intro fuel
  induction fuel with
  | zero => intro loc _ hf; omega
  | succ fuel ih =>
    intro loc hloc hf
    cases hbs : bytes.drop loc with
    | nil =>
      have hlen : bytes.length ≤ loc := List.drop_eq_nil_iff.mp hbs
      have hget : bytes[loc]? = none := List.getElem?_eq_none hlen
      refine ⟨[], loc + 1, ?_, by omega, Or.inr ⟨by omega, ?_⟩⟩
      · simp only [mapNextAux, hget, if_pos hloc]
      · rfl
    | cons b rest =>
      obtain ⟨hget, hdrop1⟩ := drop_cons_getElem bytes loc b rest hbs
      have hlt : loc < bytes.length := drop_lt_length bytes loc b rest hbs
      by_cases hb10 : b = 10
      · subst hb10
        refine ⟨[], loc + 1, ?_, by omega, Or.inl ⟨by omega, ?_⟩⟩
        · simp [mapNextAux, hget]
        · rw [hdrop1]
          rfl
      · by_cases hb13 : b = 13
        · subst hb13
          cases hrest : rest with
          | nil =>
            have hd1 : bytes.drop (loc + 1) = [] := by rw [hdrop1, hrest]
            have hlen1 : bytes.length ≤ loc + 1 := List.drop_eq_nil_iff.mp hd1
            have hget2 : bytes[loc + 1]? = none := List.getElem?_eq_none hlen1
            refine ⟨[], loc + 1, ?_, by omega, Or.inl ⟨by omega, ?_⟩⟩
            · simp [mapNextAux, hget, hget2]
            · rw [hd1]
              rfl
          | cons b2 rest2 =>
            have hd1 : bytes.drop (loc + 1) = b2 :: rest2 := by rw [hdrop1, hrest]
            obtain ⟨hget2, hdrop2⟩ := drop_cons_getElem bytes (loc + 1) b2 rest2 hd1
            have hlt2 : loc + 1 < bytes.length :=
              drop_lt_length bytes (loc + 1) b2 rest2 hd1
            by_cases hb2 : b2 = 10
            · subst hb2
              refine ⟨[], loc + 2, ?_, by omega, Or.inl ⟨by omega, ?_⟩⟩
              · simp [mapNextAux, hget, hget2]
              · rw [show loc + 2 = loc + 1 + 1 by omega, hdrop2]
                rfl
            · refine ⟨[], loc + 1, ?_, by omega, Or.inl ⟨by omega, ?_⟩⟩
              · simp [mapNextAux, hget, hget2, hb2]
              · rw [hd1, linesSpec_cr b2 rest2 hb2]
        · obtain ⟨l, loc', hmap, hlt', hdisj⟩ :=
            ih (loc + 1) (by omega) (by omega)
          have hstep :
              mapNextAux bytes (fuel + 1) loc =
                (mapNextAux bytes fuel (loc + 1)).map (fun r => (b :: r.1, r.2)) := by
            simp [mapNextAux, hget, hb10, hb13]
          refine ⟨b :: l, loc', ?_, by omega, ?_⟩
          · rw [hstep, hmap]
            rfl
          rcases hdisj with ⟨hle, hspec⟩ | ⟨heq, hspec⟩
          · refine Or.inl ⟨hle, ?_⟩
            rw [hdrop1] at hspec
            rw [linesSpec_data b rest hb10 hb13, hspec]
          · refine Or.inr ⟨heq, ?_⟩
            rw [hdrop1] at hspec
            rw [linesSpec_data b rest hb10 hb13, hspec]

theorem mapNext_char (bytes : List Nat) (loc : Nat) (hloc : loc ≤ bytes.length) :
    ∃ l loc', mapNext bytes loc = some (l, loc') ∧ loc < loc' ∧
      ((loc' ≤ bytes.length ∧
          linesSpec (bytes.drop loc) = l :: linesSpec (bytes.drop loc')) ∨
        (loc' = bytes.length + 1 ∧ linesSpec (bytes.drop loc) = [l])) :=
  mapNextAux_char bytes (bytes.length + 1 - loc) loc hloc (by omega)

theorem mapNext_none (bytes : List Nat) (loc : Nat) (h : bytes.length < loc) :
    mapNext bytes loc = none := by
  unfold mapNext
  rw [show bytes.length + 1 - loc = 0 by omega]
  rfl

theorem mapLinesFrom_of_none (bytes : List Nat) (fuel loc : Nat)
    (h : mapNext bytes loc = none) : mapLinesFrom bytes fuel loc = [] := by
  cases fuel with
  | zero => rfl
  | succ fuel => simp [mapLinesFrom, h]

theorem mapLinesFrom_char (bytes : List Nat) :
    ∀ (fuel loc : Nat), loc ≤ bytes.length → bytes.length + 2 - loc ≤ fuel →
    mapLinesFrom bytes fuel loc = linesSpec (bytes.drop loc) := by
  intro fuel
  induction fuel with
  | zero => intro loc hloc hf; omega
  | succ fuel ih =>
    intro loc hloc hf
    obtain ⟨l, loc', hnext, hlt, hdisj⟩ := mapNext_char bytes loc hloc
    rcases hdisj with ⟨hle, hspec⟩ | ⟨heq, hspec⟩
    · rw [mapLinesFrom, hnext]
      simp only []
      rw [ih loc' hle (by omega), hspec]
    · rw [mapLinesFrom, hnext]
      simp only []
      rw [mapLinesFrom_of_none bytes fuel loc' (mapNext_none bytes loc' (by omega)),
        hspec]

/-- The whole line sequence `Map` yields is the terminator-split of the
file's bytes. -/
theorem mapLines_eq_linesSpec (bytes : List Nat) :
    mapLines bytes = linesSpec bytes := by
  have h := mapLinesFrom_char bytes (bytes.length + 2) 0 (Nat.zero_le _) (by omega)
  simpa [mapLines] using h

theorem linesSpec_data_front (l : List Nat) (hl : noTermBytes l) :
    ∀ (bs x : List Nat) (xs : List (List Nat)),
      linesSpec bs = x :: xs → linesSpec (l ++ bs) = (l ++ x) :: xs := by
  induction l with
  | nil => intro bs x xs h; simpa using h
  | cons b l' ih =>
    intro bs x xs h
    have hb : b ≠ 10 ∧ b ≠ 13 := hl b (by simp)
    have hl' : noTermBytes l' := fun c hc => hl c (by simp [hc])
    have ih2 := ih hl' bs x xs h
    rw [List.cons_append, linesSpec_data b (l' ++ bs) hb.1 hb.2, ih2]
    rfl

theorem linesSpec_term (t bs : List Nat) (ht : isTermSeq t)
    (hhd : bs.head? ≠ some 10) :
    linesSpec (t ++ bs) = [] :: linesSpec bs := by
  rcases ht with h | h | h
  · subst h; rfl
  · subst h; rfl
  · subst h
    cases bs with
    | nil => rfl
    | cons b2 rest2 =>
      have hb2 : b2 ≠ 10 := by
        intro hc
        subst hc
        exact hhd rfl
      exact linesSpec_cr b2 rest2 hb2

theorem joinT_head (ls ts : List (List Nat))
    (hl : ∀ l ∈ ls, l ≠ [] ∧ noTermBytes l) :
    (joinT ls ts).head? ≠ some 10 := by
  cases ls with
  | nil => simp [joinT]
  | cons l ls' =>
    cases ts with
    | nil => simp [joinT]
    | cons t ts' =>
      obtain ⟨hne, hnt⟩ := hl l (by simp)
      cases l with
      | nil => exact absurd rfl hne
      | cons b l' =>
        have hb := hnt b (by simp)
        simp [joinT, hb.1]

/-- Splitting a file built from nonempty terminator-free line texts restores
the texts, plus the iterator's one trailing empty line. -/
theorem linesSpec_join :
    ∀ (ls ts : List (List Nat)),
      (∀ l ∈ ls, l ≠ [] ∧ noTermBytes l) → (∀ t ∈ ts, isTermSeq t) →
      ts.length = ls.length → linesSpec (joinT ls ts) = ls ++ [[]] := by
  intro ls
  induction ls with
  | nil =>
    intro ts _ _ _
    rw [show joinT [] ts = [] from rfl]
    rfl
  | cons l ls' ih =>
    intro ts hl ht hlen
    cases ts with
    | nil => simp at hlen
    | cons t ts' =>
      have hrest : linesSpec (joinT ls' ts') = ls' ++ [[]] :=
        ih ts' (fun x hx => hl x (by simp [hx])) (fun x hx => ht x (by simp [hx]))
          (by simpa using hlen)
      have hhd : (joinT ls' ts').head? ≠ some 10 :=
        joinT_head ls' ts' (fun x hx => hl x (by simp [hx]))
      have hterm : linesSpec (t ++ joinT ls' ts') = [] :: linesSpec (joinT ls' ts') :=
        linesSpec_term t _ (ht t (by simp)) hhd
      obtain ⟨hne, hnt⟩ := hl l (by simp)
      have hpre := linesSpec_data_front l hnt (t ++ joinT ls' ts') []
        (linesSpec (joinT ls' ts')) hterm
      show linesSpec (l ++ (t ++ joinT ls' ts')) = (l :: ls') ++ [[]]
      rw [hpre, hrest]
      simp

/-! ### Lemmas about the comment extractor -/

theorem rfindIdx_le_length (pat line : List Char) (r : Nat)
    (h : rfindIdx pat line = some r) : r ≤ line.length := by
  unfold rfindIdx at h
  have hmem := List.mem_of_getLast?_eq_some h
  have h2 := (List.mem_filter.mp hmem).1
  have h3 := List.mem_range.mp h2
  omega

theorem markerLast_le_length (fmt : Option (List Char)) (line : List Char)
    (r : Nat) (h : markerLast fmt line = some r) : r ≤ line.length := by
  cases fmt with
  | none => simp [markerLast] at h
  | some p => exact rfindIdx_le_length p line r h

/-- Outside state, only the end marker found: the code reports the prefix up
to the last end occurrence and leaves the state outside (arm
`(None, Some(multi_right), None, _)`, logger.rs:243-246). -/
theorem processLineCore_closeOnly_outside (inl ms me : Option (List Char))
    (line : List Char) (r : Nat) (hne : line ≠ [])
    (hs : markerFirst ms line = none) (he : markerLast me line = some r)
    (hc : markerFirst inl line = none) :
    processLineCore inl ms me line false = some (some (line.take r), false) := by
  unfold processLineCore
  rw [if_neg hne, hs, he, hc]

/-- Inside state, end marker found and no start marker on the line: the code
reports the prefix up to the last end occurrence, spliced with the inline tail
when the inline marker follows the close, and the state becomes outside
(arms at logger.rs:243-253). -/
theorem processLineCore_close_inside (inl ms me : Option (List Char))
    (line : List Char) (r : Nat) (hne : line ≠ [])
    (hs : markerFirst ms line = none) (he : markerLast me line = some r) :
    processLineCore inl ms me line true =
      some (some (match markerFirst inl line with
        | some c => if r < c then line.take r ++ line.drop c else line.take r
        | none => line.take r), false) := by
  unfold processLineCore
  rw [if_neg hne, hs, he]
  cases hc : markerFirst inl line with
  | none => rfl
  | some c => rfl

/-- Outside state, both multiline markers found, no inline marker, and the
first start occurrence not after the last end occurrence: the code reports
`line[l..r]` and leaves the state outside (logger.rs:262). -/
theorem processLineCore_selfContained (inl ms me : Option (List Char))
    (line : List Char) (l r : Nat) (hne : line ≠ [])
    (hs : markerFirst ms line = some l) (he : markerLast me line = some r)
    (hc : markerFirst inl line = none) (hlr : l ≤ r) :
    processLineCore inl ms me line false =
      some (some ((line.drop l).take (r - l)), false) := by
  have hrlen : r ≤ line.length := markerLast_le_length me line r he
  unfold processLineCore
  rw [if_neg hne, hs, he, hc]
  simp only []
  unfold sliceCk
  rw [if_pos ⟨hlr, hrlen⟩]
  rfl

theorem stepState_startOnly (inl ms me : Option (List Char)) (line : List Char)
    (h : startOnly inl ms me line) : stepState inl ms me line false = some true := by
  obtain ⟨hne, hsome, hend, hinl⟩ := h
  obtain ⟨l, hl⟩ := Option.isSome_iff_exists.mp hsome
  unfold stepState processLineCore
  rw [if_neg hne, hl, hend, hinl]
  rfl

theorem stepState_noMarker_inside (inl ms me : Option (List Char))
    (line : List Char) (h : noMarker inl ms me line) :
    stepState inl ms me line true = some true := by
  obtain ⟨hs, he, hc⟩ := h
  by_cases hne : line = []
  · subst hne
    rfl
  · unfold stepState processLineCore
    rw [if_neg hne, hs, he, hc]
    rfl

theorem stepState_endOnly_inside (inl ms me : Option (List Char))
    (line : List Char) (h : endOnly inl ms me line) :
    stepState inl ms me line true = some false := by
  obtain ⟨hne, hs, hsome, hc⟩ := h
  obtain ⟨r, hr⟩ := Option.isSome_iff_exists.mp hsome
  unfold stepState processLineCore
  rw [if_neg hne, hs, hr, hc]
  rfl

theorem runStates_snoc (inl ms me : Option (List Char)) (xs : List (List Char))
    (x : List Char) (st : Bool) :
    runStates inl ms me (xs ++ [x]) st =
      (runStates inl ms me xs st).bind (fun s => stepState inl ms me x s) := by
  induction xs generalizing st with
  | nil =>
    simp only [List.nil_append]
    unfold runStates stepState
    cases h : processLineCore inl ms me x st with
    | none => simp [h]
    | some v =>
      obtain ⟨p, st'⟩ := v
      simp [h, runStates]
  | cons y ys ih =>
    simp only [List.cons_append]
    unfold runStates
    cases h : processLineCore inl ms me y st with
    | none => rfl
    | some v =>
      obtain ⟨p, st'⟩ := v
      exact ih st'

/-! ### The keyword-sum invariant -/

theorem sumKw_incKey (t : List (List Char × Nat)) (k : List Char) :
    ((incKey k t).map (fun e => e.2)).sum = (t.map (fun e => e.2)).sum + 1 := by
  induction t with
  | nil => rfl
  | cons e rest ih =>
    obtain ⟨k', v⟩ := e
    by_cases h : k' = k
    · simp only [incKey, if_pos h, List.map_cons, List.sum_cons]
      omega
    · simp only [incKey, if_neg h, List.map_cons, List.sum_cons, ih]
      omega

/-- Every reachable aggregate state satisfies the invariant: the keyword
counters sum to at most the line counter. -/
theorem reachable_inv (a : Agg) (h : Reachable a) : sumKw a ≤ a.lineCount := by
  induction h with
  | init => decide
  | lineStep _ ih =>
    simp only [incLineAgg, sumKw] at *
    omega
  | kwStep k _ ih =>
    simp only [incKwAgg, incLineAgg, sumKw, sumKw_incKey] at *
    omega
  | ftStep n _ ih =>
    simp only [incFtAgg, sumKw] at *
    omega

theorem reachable_tallyStep (kws : List (List Char)) (portion : List Char) :
    ∀ (a : Agg), Reachable a →
    Reachable (kws.foldl
      (fun acc kw => if containsKw portion kw then incKwAgg kw (incLineAgg acc) else acc)
      a) := by
  induction kws with
  | nil => intro a h; exact h
  | cons kw rest ih =>
    intro a h
    simp only [List.foldl_cons]
    by_cases hc : containsKw portion kw
    · rw [if_pos hc]
      exact ih _ (Reachable.kwStep kw h)
    · rw [if_neg hc]
      exact ih _ h

theorem reachable_tally (portion : List Char) (a : Agg) (h : Reachable a) :
    Reachable (tallyKeywords portion a) :=
  reachable_tallyStep KEY_COMMENTS portion a h

theorem reachable_processLineTally (ft : FileType) (line : List Char) (st : Bool)
    (a : Agg) (st' : Bool) (a' : Agg) (h : Reachable a)
    (hp : processLineTally ft line st a = some (st', a')) : Reachable a' := by
  unfold processLineTally at hp
  split at hp
  · exact absurd hp (by simp)
  · simp only [Option.some.injEq, Prod.mk.injEq] at hp
    rw [← hp.2]
    exact h
  · simp only [Option.some.injEq, Prod.mk.injEq] at hp
    rw [← hp.2]
    exact reachable_tally _ a h

theorem reachable_parseLines (ft : FileType) :
    ∀ (ls : List (List Char)) (st : Bool) (a a' : Agg), Reachable a →
      parseLines ft ls st a = some a' → Reachable a' := by
  intro ls
  induction ls with
  | nil =>
    intro st a a' h hp
    simp only [parseLines, Option.some.injEq] at hp
    rw [← hp]
    exact h
  | cons l rest ih =>
    intro st a a' h hp
    unfold parseLines at hp
    split at hp
    · exact absurd hp (by simp)
    · next st1 a1 heq =>
      exact ih st1 (incLineAgg a1) a'
        (Reachable.lineStep (reachable_processLineTally ft l st a st1 a1 h heq)) hp

theorem reachable_parseFile (openOk : Bool) (p : PathM)
    (contents : List (List Char)) (a a' : Agg) (h : Reachable a)
    (hp : parseFile openOk p contents a = some a') : Reachable a' := by
  unfold parseFile at hp
  split at hp
  · simp only [Option.some.injEq] at hp
    rw [← hp]
    exact h
  · split at hp
    · simp only [Option.some.injEq] at hp
      rw [← hp]
      exact h
    · next ft heq =>
      exact reachable_parseLines ft _ _ _ _ (Reachable.ftStep _ h) hp

theorem reachable_scanFiles :
    ∀ (fs : List FileEntry) (a a' : Agg), Reachable a →
      scanFiles fs a = some a' → Reachable a' := by
  intro fs
  induction fs with
  | nil =>
    intro a a' h hp
    simp only [scanFiles, Option.some.injEq] at hp
    rw [← hp]
    exact h
  | cons f rest ih =>
    intro a a' h hp
    unfold scanFiles at hp
    split at hp
    · exact absurd hp (by simp)
    · next a1 heq =>
      exact ih a1 a'
        (reachable_parseFile f.openOk f.path f.contents a a1 h heq) hp

theorem take_succ_of_getElem {α : Type} (ls : List α) (k : Nat) (x : α)
    (hx : ls[k]? = some x) : ls.take (k + 1) = ls.take k ++ [x] := by
  rw [List.take_succ, hx]
  rfl

/-- The multiline flag stays raised from the opening line to the line before
the close and drops on the closing line, provided it was down beforehand. -/
theorem runStates_roundTrip (inl ms me : Option (List Char))
    (ls : List (List Char)) (n m : Nat) (hnm : n < m) (hm : m < ls.length)
    (hstart : ∀ l, ls[n]? = some l → startOnly inl ms me l)
    (hmid : ∀ j, n < j → j < m → ∀ l, ls[j]? = some l → noMarker inl ms me l)
    (hend : ∀ l, ls[m]? = some l → endOnly inl ms me l)
    (hpre : runStates inl ms me (ls.take n) false = some false) :
    (∀ k, n ≤ k → k < m →
      runStates inl ms me (ls.take (k + 1)) false = some true) ∧
    runStates inl ms me (ls.take (m + 1)) false = some false := by
  have aux : ∀ d, n + d < m →
      runStates inl ms me (ls.take (n + d + 1)) false = some true := by
    intro d
    induction d with
    | zero =>
      intro hd
      have hn_lt : n < ls.length := by omega
      obtain ⟨x, hx⟩ : ∃ x, ls[n]? = some x :=
        ⟨_, List.getElem?_eq_getElem hn_lt⟩
      rw [show n + 0 + 1 = n + 1 by omega, take_succ_of_getElem ls n x hx,
        runStates_snoc, hpre, Option.some_bind]
      exact stepState_startOnly inl ms me x (hstart x hx)
    | succ d ih =>
      intro hd
      have hid := ih (by omega)
      have hj_lt : n + d + 1 < ls.length := by omega
      obtain ⟨x, hx⟩ : ∃ x, ls[n + d + 1]? = some x :=
        ⟨_, List.getElem?_eq_getElem hj_lt⟩
      rw [show n + (d + 1) + 1 = n + d + 1 + 1 by omega,
        take_succ_of_getElem ls (n + d + 1) x hx, runStates_snoc, hid,
        Option.some_bind]
      exact stepState_noMarker_inside inl ms me x
        (hmid (n + d + 1) (by omega) (by omega) x hx)
  have part1 : ∀ k, n ≤ k → k < m →
      runStates inl ms me (ls.take (k + 1)) false = some true := by
    intro k hk1 hk2
    have h := aux (k - n) (by omega)
    rw [show n + (k - n) = k by omega] at h
    exact h
  refine ⟨part1, ?_⟩
  have hm1 : runStates inl ms me (ls.take m) false = some true := by
    have h := part1 (m - 1) (by omega) (by omega)
    rw [show m - 1 + 1 = m by omega] at h
    exact h
  obtain ⟨x, hx⟩ : ∃ x, ls[m]? = some x := ⟨_, List.getElem?_eq_getElem hm⟩
  rw [take_succ_of_getElem ls m x hx, runStates_snoc, hm1, Option.some_bind]
  exact stepState_endOnly_inside inl ms me x (hend x hx)

/-! ### The claims -/

/-- C1, counterexample: scanning the two-line C file `// TODO: fix` /
`int x = 1;` does not leave the line counter at 2 — the keyword loop in
`process_line` bumps the same counter once more for the TODO hit, so it
ends at 3. -/
theorem c1_counterexample :
    (scanFiles
      [⟨true, ⟨some "c", some "main.c"⟩,
        ["// TODO: fix".data, "int x = 1;".data]⟩] Agg.init).map
      (fun a => a.lineCount) ≠ some 2 := by decide

/-- C1 (amended): scanning the two-line C file `// TODO: fix` /
`int x = 1;` yields line counter 3 (once per line plus once for the TODO
hit), keyword count TODO = 1 with all other keywords 0, and file count 1
for the C grammar. -/
theorem c1_amended_scan :
    scanFiles
      [⟨true, ⟨some "c", some "main.c"⟩,
        ["// TODO: fix".data, "int x = 1;".data]⟩] Agg.init =
    some ⟨3, [("TODO".data, 1), ("HACK".data, 0), ("BUG".data, 0),
      ("FIXME".data, 0)], [("C", 1)]⟩ := by decide

/-- C2, counterexample: on the line `a /* b */ c` processed inside a
multiline comment with the C grammar, the end marker occurs (last at
index 7), yet the state stays `true` and the whole line is reported — the
claim demanded state `false`. -/
theorem c2_counterexample :
    markerLast (some "*/".data) "a /* b */ c".data = some 7 ∧
    processLineCore (some "//".data) (some "/*".data) (some "*/".data)
      "a /* b */ c".data true =
      some (some "a /* b */ c".data, true) := by decide

/-- C2 (amended): for every line processed while inside a multiline comment
on which the end marker occurs but the start marker does not, extraction
reports the span from line start up to (not including) the last end-marker
occurrence — spliced with the from-inline-marker tail when an inline marker
follows the close position — and sets the state to outside.  (When a start
marker also occurs on such a line, the code instead reports the whole line
and stays inside.) -/
theorem c2_amended (inl ms me : Option (List Char)) (line : List Char)
    (r : Nat) (hne : line ≠ []) (hs : markerFirst ms line = none)
    (he : markerLast me line = some r) :
    processLineCore inl ms me line true =
      some (some (match markerFirst inl line with
        | some c => if r < c then line.take r ++ line.drop c else line.take r
        | none => line.take r), false) :=
  processLineCore_close_inside inl ms me line r hne hs he

/-- C2, witness: the C grammar on `x */ // yo` while inside: close at 2,
inline at 5, so the reported text is `x ` spliced with `// yo`, state
becomes outside. -/
theorem c2_witness :
    "x */ // yo".data ≠ [] ∧
    markerFirst (some "/*".data) "x */ // yo".data = none ∧
    markerLast (some "*/".data) "x */ // yo".data = some 2 ∧
    processLineCore (some "//".data) (some "/*".data) (some "*/".data)
      "x */ // yo".data true = some (some "x // yo".data, false) :=
  ⟨by decide, by decide, by decide,
    c2_amended (some "//".data) (some "/*".data) (some "*/".data)
      "x */ // yo".data 2 (by decide) (by decide) (by decide)⟩

/-- C3: evaluating the Line Source on the bytes `a\n` (a file that ends in
a terminator) yields the line `a` and then a trailing empty line, contrary
to the specified behaviour. -/
theorem c3_trailing_empty_line : mapLines [97, 10] = [[97], []] := by decide

/-- C4: on the line `*/ x /*` with the C grammar and state outside, the
last end occurrence (0) precedes the first start occurrence (5), so the
code's slice `&line[5..0]` panics — line processing is not total. -/
theorem c4_panic_eval :
    processLineCore (some "//".data) (some "/*".data) (some "*/".data)
      "*/ x /*".data false = none := by decide

/-- C5, counterexample: on `/*x*/` with the C grammar and state outside,
the reported text is `/*x` — it contains the start marker, not the slice
strictly between the markers (`x`). -/
theorem c5_counterexample :
    processLineCore (some "//".data) (some "/*".data) (some "*/".data)
      "/*x*/".data false = some (some "/*x".data, false) ∧
    processLineCore (some "//".data) (some "/*".data) (some "*/".data)
      "/*x*/".data false ≠ some (some "x".data, false) := by decide

/-- C5 (amended): for every line processed while outside on which both
multiline markers occur but no inline marker, with the first start
occurrence `l` not after the last end occurrence `r`, the reported comment
text is `line[l..r]` — from the start marker (marker included) up to but
not including the end marker — and the state remains outside. -/
theorem c5_amended (inl ms me : Option (List Char)) (line : List Char)
    (l r : Nat) (hne : line ≠ []) (hs : markerFirst ms line = some l)
    (he : markerLast me line = some r) (hc : markerFirst inl line = none)
    (hlr : l ≤ r) :
    processLineCore inl ms me line false =
      some (some ((line.drop l).take (r - l)), false) :=
  processLineCore_selfContained inl ms me line l r hne hs he hc hlr

/-- C5, witness: the C grammar on `/*x*/` while outside: start at 0, end at
3, reported text `/*x`, state stays outside. -/
theorem c5_witness :
    markerFirst (some "/*".data) "/*x*/".data = some 0 ∧
    markerLast (some "*/".data) "/*x*/".data = some 3 ∧
    markerFirst (some "//".data) "/*x*/".data = none ∧
    processLineCore (some "//".data) (some "/*".data) (some "*/".data)
      "/*x*/".data false = some (some "/*x".data, false) :=
  ⟨by decide, by decide, by decide,
    c5_amended (some "//".data) (some "/*".data) (some "*/".data)
      "/*x*/".data 0 3 (by decide) (by decide) (by decide) (by decide)
      (by decide)⟩

/-- C6: at every reachable aggregate state, and in particular in the final
aggregate of any scan that runs to completion, the keyword counters sum to
at most the line counter. -/
theorem c6_invariant :
    (∀ a : Agg, Reachable a → sumKw a ≤ a.lineCount) ∧
    (∀ (fs : List FileEntry) (a : Agg),
      scanFiles fs Agg.init = some a → sumKw a ≤ a.lineCount) :=
  ⟨fun a h => reachable_inv a h,
    fun fs a h =>
      reachable_inv a (reachable_scanFiles fs Agg.init a Reachable.init h)⟩

/-- C6, witness: the invariant instantiated at the completed scan of the
two-line C file (keyword sum 1 against line counter 3). -/
theorem c6_witness :
    sumKw ⟨3, [("TODO".data, 1), ("HACK".data, 0), ("BUG".data, 0),
      ("FIXME".data, 0)], [("C", 1)]⟩ ≤
    Agg.lineCount ⟨3, [("TODO".data, 1), ("HACK".data, 0), ("BUG".data, 0),
      ("FIXME".data, 0)], [("C", 1)]⟩ :=
  c6_invariant.2
    [⟨true, ⟨some "c", some "main.c"⟩,
      ["// TODO: fix".data, "int x = 1;".data]⟩] _ (by decide)

/-- C7: a file whose open fails, or whose classification is `none`, is
skipped atomically — the rest of the scan proceeds from an unchanged
aggregate, and the scan does not abort. -/
theorem c7_skip (openOk : Bool) (p : PathM) (cs : List (List Char))
    (rest : List FileEntry) (a : Agg)
    (h : openOk = false ∨ classifyFile p = none) :
    scanFiles (⟨openOk, p, cs⟩ :: rest) a = scanFiles rest a := by
  have hp : parseFile openOk p cs a = some a := by
    unfold parseFile
    rcases h with h | h
    · rw [h]
      simp
    · rw [h]
      cases openOk <;> simp
  show (match parseFile openOk p cs a with
    | none => none
    | some a' => scanFiles rest a') = scanFiles rest a
  rw [hp]

/-- C7, witness: a path with the unrecognized extension `txt` is skipped
even though the file opened and its contents mention TODO. -/
theorem c7_witness :
    scanFiles [⟨true, ⟨some "txt", some "notes.txt"⟩, ["TODO".data]⟩]
      Agg.init = scanFiles [] Agg.init :=
  c7_skip true ⟨some "txt", some "notes.txt"⟩ ["TODO".data] [] Agg.init
    (Or.inr (by decide))

/-- C8, counterexample: the line texts `a` and the empty text, joined with
LF-only terminators versus the mixture CR then LF, give byte files the Line
Source decodes differently (the CR and the following LF merge into one CRLF
boundary). -/
theorem c8_counterexample :
    isTermSeq [13] ∧ isTermSeq [10] ∧ noTermBytes [97] ∧
    mapLines (joinT [[97], []] [[10], [10]]) ≠
      mapLines (joinT [[97], []] [[13], [10]]) := by decide

/-- C8 (amended): for every sequence of nonempty terminator-free line
texts, the byte files obtained by terminating each line with LF, CRLF, CR,
or any mixture of the three, make the Line Source produce the same sequence
of decoded line texts.  (An empty line text breaks this when a lone-CR
terminator ends the previous line and LF ends the empty one.) -/
theorem c8_amended (ls ts1 ts2 : List (List Nat))
    (hl : ∀ l ∈ ls, l ≠ [] ∧ noTermBytes l)
    (ht1 : ∀ t ∈ ts1, isTermSeq t) (ht2 : ∀ t ∈ ts2, isTermSeq t)
    (hlen1 : ts1.length = ls.length) (hlen2 : ts2.length = ls.length) :
    mapLines (joinT ls ts1) = mapLines (joinT ls ts2) := by
  rw [mapLines_eq_linesSpec, mapLines_eq_linesSpec,
    linesSpec_join ls ts1 hl ht1 hlen1, linesSpec_join ls ts2 hl ht2 hlen2]

/-- C8, witness: `a`/`b` terminated LF/CRLF versus CR/LF decode alike. -/
theorem c8_witness :
    mapLines (joinT [[97], [98]] [[10], [13, 10]]) =
      mapLines (joinT [[97], [98]] [[13], [10]]) :=
  c8_amended [[97], [98]] [[10], [13, 10]] [[13], [10]] (by decide)
    (by decide) (by decide) (by decide) (by decide)

/-- C9: if the multiline flag is down before line `n`, line `n` carries only
a start marker, the lines strictly between `n` and `m` carry no marker, and
line `m` carries only an end marker, then the flag is up after each of lines
`n` through `m - 1` and down again after line `m`. -/
theorem c9_roundTrip (inl ms me : Option (List Char))
    (ls : List (List Char)) (n m : Nat) (hnm : n < m) (hm : m < ls.length)
    (hstart : ∀ l, ls[n]? = some l → startOnly inl ms me l)
    (hmid : ∀ j, n < j → j < m → ∀ l, ls[j]? = some l → noMarker inl ms me l)
    (hend : ∀ l, ls[m]? = some l → endOnly inl ms me l)
    (hpre : runStates inl ms me (ls.take n) false = some false) :
    (∀ k, n ≤ k → k < m →
      runStates inl ms me (ls.take (k + 1)) false = some true) ∧
    runStates inl ms me (ls.take (m + 1)) false = some false :=
  runStates_roundTrip inl ms me ls n m hnm hm hstart hmid hend hpre

/-- C9, witness: in the C grammar, the five-line file `a`, `/* c`, `mid`,
`x */`, `z` opens on line 1 and closes on line 3 (0-based): the flag is up
after lines 1 and 2 and down after line 3. -/
theorem c9_witness :
    runStates (some "//".data) (some "/*".data) (some "*/".data)
      (["a".data, "/* c".data, "mid".data, "x */".data, "z".data].take 2)
      false = some true ∧
    runStates (some "//".data) (some "/*".data) (some "*/".data)
      (["a".data, "/* c".data, "mid".data, "x */".data, "z".data].take 4)
      false = some false := by
  have h := c9_roundTrip (some "//".data) (some "/*".data) (some "*/".data)
    ["a".data, "/* c".data, "mid".data, "x */".data, "z".data] 1 3
    (by omega) (by decide)
    (by intro l hl; injection hl with h2; subst h2; decide)
    (by
      intro j h1 h2 l hl
      have hj : j = 2 := by omega
      subst hj
      injection hl with h2
      subst h2
      decide)
    (by intro l hl; injection hl with h2; subst h2; decide)
    (by decide)
  exact ⟨h.1 1 (by omega) (by omega), h.2⟩

/-- C10: for every line processed while outside on which the end marker
occurs but neither the start nor the inline marker does, the code reports
the prefix up to (not including) the last end occurrence and the state
remains outside. -/
theorem c10_closeOnly (inl ms me : Option (List Char)) (line : List Char)
    (r : Nat) (hne : line ≠ []) (hs : markerFirst ms line = none)
    (he : markerLast me line = some r) (hc : markerFirst inl line = none) :
    processLineCore inl ms me line false = some (some (line.take r), false) :=
  processLineCore_closeOnly_outside inl ms me line r hne hs he hc

/-- C10, witness: the C grammar on `x */ y` while outside: only the end
marker occurs (last at 2); the reported text is `x ` and the state stays
outside. -/
theorem c10_witness :
    markerFirst (some "/*".data) "x */ y".data = none ∧
    markerLast (some "*/".data) "x */ y".data = some 2 ∧
    markerFirst (some "//".data) "x */ y".data = none ∧
    processLineCore (some "//".data) (some "/*".data) (some "*/".data)
      "x */ y".data false = some (some "x ".data, false) :=
  ⟨by decide, by decide, by decide,
    c10_closeOnly (some "//".data) (some "/*".data) (some "*/".data)
      "x */ y".data 2 (by decide) (by decide) (by decide) (by decide)⟩

end Pursue
